import Mathlib

/-!
Verification of the streaming buffer and stitching engine of the
VoiceConversion real-time GUI (src/gui.py).

Samples are modelled as rationals (the code uses 32-bit floats; every
property verified here is exact arithmetic or bookkeeping, independent of
rounding), buffers as lists, and the stateful callback updates as pure
functions on those lists.
-/

namespace VoiceConversion

/-! ## Ring-buffer update (gui.py, audio_callback lines 870-879)

The code performs, on a fixed-size 1-D tensor `buf` and a new block `new`
with `k = len(new)`:
  buf[: -k] = buf[k :]      (shift left by k, tail positions untouched)
  buf[-k :] = new           (overwrite the last k positions)
The spec names this composite `shift_and_append(buffer, new_samples)`.
-/

/-- The slice assignment `buf[: -k] = buf[k :]`: positions `0 .. L-k-1`
receive the old elements `k .. L-1`; the last `k` positions keep their old
values. -/
def shiftLeftBy (buf : List ℚ) (k : ℕ) : List ℚ :=
  buf.drop k ++ buf.drop (buf.length - k)

/-- The slice assignment `buf[-k :] = new` with `k = new.length`: the first
`L - k` positions keep their values, the last `k` become `new`. -/
def writeTail (buf new : List ℚ) : List ℚ :=
  buf.take (buf.length - new.length) ++ new

/-- `shift_and_append(buffer, new_samples)`: the composite ring-buffer
update performed once per audio callback on `input_wav`,
`input_wav_res`, `input_wav_denoise` and `output_buffer`. -/
def shift_and_append (buf new : List ℚ) : List ℚ :=
  writeTail (shiftLeftBy buf new.length) new

theorem shiftLeftBy_length (buf : List ℚ) (k : ℕ) (h : k ≤ buf.length) :
    (shiftLeftBy buf k).length = buf.length := by
  simp only [shiftLeftBy, List.length_append, List.length_drop]
  omega

theorem shift_and_append_eq (buf new : List ℚ) (h : new.length ≤ buf.length) :
    shift_and_append buf new = buf.drop new.length ++ new := by
  unfold shift_and_append writeTail
  rw [shiftLeftBy_length buf new.length h]
  unfold shiftLeftBy
  rw [List.take_append_eq_append_take]
  have h1 : (buf.drop new.length).length = buf.length - new.length := by
    simp
  rw [h1]
  simp

/-- C2: for every buffer and new block with `len(new) ≤ len(buffer)`, the
ring-buffer update `shift_and_append` preserves the total length, places
exactly the new samples in the last `len(new)` positions, and sets every
other position `i` to the old buffer's element at `i + len(new)`. -/
theorem shift_and_append_spec (buf new : List ℚ)
    (h : new.length ≤ buf.length) :
    (shift_and_append buf new).length = buf.length ∧
    (shift_and_append buf new).drop (buf.length - new.length) = new ∧
    ∀ i, i < buf.length - new.length →
      (shift_and_append buf new)[i]? = buf[i + new.length]? := by
  rw [shift_and_append_eq buf new h]
  refine ⟨by simp; omega, ?_, ?_⟩
  · have h1 : buf.length - new.length = (buf.drop new.length).length := by simp
    rw [h1, List.drop_left]
  · intro i hi
    have hlen : i < (buf.drop new.length).length := by simp; omega
    rw [List.getElem?_append, if_pos hlen, List.getElem?_drop, Nat.add_comm]

/-- C2 witness: the theorem instantiated on the concrete buffer
`[1,2,3,4]` and new block `[9,8]`. -/
theorem shift_and_append_spec_witness :
    ([(9:ℚ), 8].length ≤ [(1:ℚ), 2, 3, 4].length) ∧
    ((shift_and_append [(1:ℚ), 2, 3, 4] [9, 8]).length = 4 ∧
     (shift_and_append [(1:ℚ), 2, 3, 4] [9, 8]).drop 2 = [9, 8] ∧
     ∀ i, i < 2 →
       (shift_and_append [(1:ℚ), 2, 3, 4] [9, 8])[i]? =
         [(1:ℚ), 2, 3, 4][i + 2]?) :=
  ⟨by decide, shift_and_append_spec [(1:ℚ), 2, 3, 4] [9, 8] (by decide)⟩

/-! ## Noise gate (gui.py, audio_callback lines 855-868)

When the threshold is above the -60 dB sentinel the code runs
  indata = np.append(self.rms_buffer, indata)
  rms    = librosa.feature.rms(y=indata, frame_length=4*zc, hop_length=zc)[:, 2:]
  self.rms_buffer[:] = indata[-4*zc:]
  indata = indata[2*zc - zc//2:]
  db_threhold = (librosa.amplitude_to_db(rms, ref=1.0)[0] < threhold)
  for i in range(db_threhold.shape[0]):
      if db_threhold[i]: indata[i*zc : (i+1)*zc] = 0
  indata = indata[zc//2:]
The dB comparison `db_threhold` is a boolean per analysis frame computed
by librosa (square root and log10 of frame energies); it is modelled here
as an abstract frame mask `mask`, which is sound for every property below
because the zeroing step never changes the number of samples, whatever the
mask values are.  With librosa's centred framing, the number of analysis
frames after the `[:, 2:]` slice is `len(indata)/zc + 1 - 2`.
-/

/-- The zeroing loop: position `p` is zeroed when its frame `p / zc` is
below the number of analysis frames and flagged by the mask. -/
def zeroFrames (zc nframes : ℕ) (mask : ℕ → Bool) (l : List ℚ) : List ℚ :=
  l.mapIdx (fun p x => if p / zc < nframes ∧ mask (p / zc) then 0 else x)

/-- The gated input path of the audio callback: prepend the retained
4·zc-sample lookback tail, trim `2*zc - zc/2` samples, zero the frames
flagged by the dB mask, then trim another `zc/2` samples. -/
def gateProcess (zc : ℕ) (rmsBuffer block : List ℚ) (mask : ℕ → Bool) :
    List ℚ :=
  let ind := rmsBuffer ++ block
  let nframes := ind.length / zc + 1 - 2
  let ind2 := ind.drop (2 * zc - zc / 2)
  let ind3 := zeroFrames zc nframes mask ind2
  ind3.drop (zc / 2)

/-- C4 counterexample: with `zc = 4`, a 16-sample retained tail and an
8-sample raw block, the gated path produces 16 samples while the un-gated
path keeps the raw block's 8 samples — the two sample counts differ. -/
theorem gate_length_counterexample :
    (gateProcess 4 (List.replicate 16 (0 : ℚ)) (List.replicate 8 0)
        (fun _ => false)).length ≠ (List.replicate 8 (0 : ℚ)).length := by
  decide

/-- C4 (amended): whenever the retained lookback tail has its invariant
length 4·zc, the gated path produces a processed segment of exactly
`len(block) + 2·zc` samples — the raw block plus a re-emitted 2·zc-sample
suffix of older input — rather than the un-gated path's `len(block)`;
downstream writes stay consistent because both paths index by the
segment's own length. -/
theorem gate_length_amended (zc : ℕ) (rmsBuffer block : List ℚ)
    (mask : ℕ → Bool) (h : rmsBuffer.length = 4 * zc) :
    (gateProcess zc rmsBuffer block mask).length = block.length + 2 * zc := by
  simp only [gateProcess, zeroFrames, List.length_drop, List.length_mapIdx,
    List.length_append, h]
  omega

/-- C4 witness: the amended length law instantiated at `zc = 2` with an
8-sample tail and a 4-sample block. -/
theorem gate_length_amended_witness :
    (List.replicate 8 (0 : ℚ)).length = 4 * 2 ∧
    (gateProcess 2 (List.replicate 8 (0 : ℚ)) (List.replicate 4 0)
        (fun _ => true)).length = (List.replicate 4 (0 : ℚ)).length + 2 * 2 :=
  ⟨by decide,
   gate_length_amended 2 (List.replicate 8 0) (List.replicate 4 0)
     (fun _ => true) (by decide)⟩

/-! ## Fade windows (gui.py, start_vc lines 778-793)

  self.fade_in_window  = torch.sin(0.5 * pi * torch.linspace(0, 1, steps=sola_buffer_frame)) ** 2
  self.fade_out_window = 1 - self.fade_in_window
The k-th point of torch.linspace(0, 1, steps=n) is k/(n-1).
-/

/-- Sample `k` of the fade-in window of length `n`. -/
noncomputable def fade_in_window (n k : ℕ) : ℝ :=
  Real.sin (0.5 * Real.pi * ((k : ℝ) / ((n : ℝ) - 1))) ^ 2

/-- Sample `k` of the fade-out window of length `n`. -/
noncomputable def fade_out_window (n k : ℕ) : ℝ :=
  1 - fade_in_window n k

/-- C3 counterexample: for a window of length 3 at index 1 the fade-in
value is sin(pi/4)^2 = 1/2, so fade_in^2 + fade_out^2 = 1/2, not 1: the
precomputed windows are not power-complementary. -/
theorem fade_power_complementary_counterexample :
    fade_in_window 3 1 ^ 2 + fade_out_window 3 1 ^ 2 ≠ 1 := by
  have harg : 0.5 * Real.pi * ((1 : ℕ) / ((3 : ℕ) - 1) : ℝ) = Real.pi / 4 := by
    push_cast
    ring
  have hin : fade_in_window 3 1 = 1 / 2 := by
    rw [fade_in_window, harg, Real.sin_pi_div_four, div_pow,
      Real.sq_sqrt (by norm_num : (0 : ℝ) ≤ 2)]
    norm_num
  rw [fade_out_window, hin]
  norm_num

/-- C3 (amended): the precomputed fade windows are amplitude-complementary,
fade_in(t) + fade_out(t) = 1 for every index, and each window value lies
in [0, 1]. -/
theorem fade_windows_amplitude_complementary (n k : ℕ) :
    fade_in_window n k + fade_out_window n k = 1 ∧
    0 ≤ fade_in_window n k ∧ fade_in_window n k ≤ 1 ∧
    0 ≤ fade_out_window n k ∧ fade_out_window n k ≤ 1 := by
  have h0 : 0 ≤ fade_in_window n k := sq_nonneg _
  have h1 : fade_in_window n k ≤ 1 := by
    have := Real.sin_sq_le_one (0.5 * Real.pi * ((k : ℝ) / ((n : ℝ) - 1)))
    simpa [fade_in_window] using this
  refine ⟨by rw [fade_out_window]; ring, h0, h1, ?_, ?_⟩
  · rw [fade_out_window]; linarith
  · rw [fade_out_window]; linarith

/-- The linear SOLA crossfade (gui.py lines 989-992):
  infer_wav[:L] *= fade_in_window ; infer_wav[:L] += sola_buffer * fade_out_window. -/
noncomputable def linearCrossfade (n : ℕ) (newBlock oldTail : ℕ → ℝ) (k : ℕ) : ℝ :=
  newBlock k * fade_in_window n k + oldTail k * fade_out_window n k

/-- C9: since fade_out is defined as 1 - fade_in with fade_in = sin^2, the
windows are amplitude-complementary and every linear crossfade in the
pipeline is a convex (affine) combination of the new block and the old
tail, hence bounded by their pointwise min and max. -/
theorem crossfade_convex_combination (n k : ℕ) (newBlock oldTail : ℕ → ℝ) :
    fade_in_window n k + fade_out_window n k = 1 ∧
    linearCrossfade n newBlock oldTail k =
      fade_in_window n k * newBlock k +
        (1 - fade_in_window n k) * oldTail k ∧
    min (newBlock k) (oldTail k) ≤ linearCrossfade n newBlock oldTail k ∧
    linearCrossfade n newBlock oldTail k ≤ max (newBlock k) (oldTail k) := by
  have h0 : 0 ≤ fade_in_window n k := sq_nonneg _
  have h1 : fade_in_window n k ≤ 1 := by
    have := Real.sin_sq_le_one (0.5 * Real.pi * ((k : ℝ) / ((n : ℝ) - 1)))
    simpa [fade_in_window] using this
  refine ⟨by rw [fade_out_window]; ring, by rw [linearCrossfade, fade_out_window]; ring, ?_, ?_⟩
  · have ha := min_le_left (newBlock k) (oldTail k)
    have hb := min_le_right (newBlock k) (oldTail k)
    rw [linearCrossfade, fade_out_window]
    nlinarith
  · have ha := le_max_left (newBlock k) (oldTail k)
    have hb := le_max_right (newBlock k) (oldTail k)
    rw [linearCrossfade, fade_out_window]
    nlinarith

/-! ## Volume envelope mixing (gui.py, audio_callback lines 935-968)

  if self.gui_config.rms_mix_rate < 1 and self.function == "vc":
      ... rms1, rms2 = framewise RMS of input / inferred segment ...
      infer_wav *= torch.pow(rms1 / rms2, 1 - rms_mix_rate)
The per-sample factor pow(rms1/rms2, 1 - rms_mix_rate) involves square
roots and interpolation; it is modelled as an abstract gain profile,
which is sound for the guard property verified here: the whole stage is
skipped unless rms_mix_rate < 1 and the function mode is "vc".
-/

/-- The two function modes of the GUI: voice conversion and input monitor. -/
inductive FuncMode where
  | vc
  | im
deriving DecidableEq

/-- The envelope-mixing stage: scale the inferred waveform pointwise by
the RMS-ratio gain when enabled, pass it through unchanged otherwise. -/
def envelope_mix (rms_mix_rate : ℚ) (funcMode : FuncMode) (gain : ℕ → ℚ)
    (infer_wav : List ℚ) : List ℚ :=
  if rms_mix_rate < 1 ∧ funcMode = FuncMode.vc then
    infer_wav.mapIdx (fun i x => x * gain i)
  else infer_wav

/-- C5: when rms_mix_rate = 1 the envelope-mixing stage is disabled and
the inferred waveform reaches the stitching stage exactly unchanged, for
every function mode, every RMS gain profile and every waveform. -/
theorem rms_mix_rate_one_identity (funcMode : FuncMode) (gain : ℕ → ℚ)
    (infer_wav : List ℚ) :
    envelope_mix 1 funcMode gain infer_wav = infer_wav := by
  simp [envelope_mix]

/-! ## SOLA offset search (gui.py, audio_callback lines 969-986)

  cor_nom = F.conv1d(conv_input, self.sola_buffer[None, None, :])
  cor_den = torch.sqrt(F.conv1d(conv_input**2, ones(sola_buffer_frame)) + 1e-8)
  if sys.platform == "darwin":
      _, sola_offset = torch.max(cor_nom[0, 0] / cor_den[0, 0])
      sola_offset = sola_offset.item()
  else:
      sola_offset = torch.argmax(cor_nom[0, 0] / cor_den[0, 0])

`ratios` below is the sequence of normalized cross-correlation values
cor_nom/cor_den at offsets 0 .. sola_search_frame.  `argmaxFirst` is the
reduction performed on the non-darwin path: torch.argmax returns the
index of the first occurrence of the maximum.  On darwin the code instead
calls torch.max with a single tensor argument, which returns only the
maximum value (a 0-dimensional tensor), so the tuple unpacking
`_, sola_offset = ...` fails: the two platform branches do not agree.
-/

/-- First-occurrence argmax: index of the first maximal element
(0 for the empty list). -/
def argmaxFirst : List ℚ → ℕ
  | [] => 0
  | x :: xs =>
    let j := argmaxFirst xs
    match xs[j]? with
    | none => 0
    | some v => if x < v then j + 1 else 0

theorem argmaxFirst_lt_length (l : List ℚ) (h : l ≠ []) :
    argmaxFirst l < l.length := by
  induction l with
  | nil => simp at h
  | cons x xs ih =>
    rw [argmaxFirst]
    rcases eq_or_ne xs [] with hxs | hxs
    · subst hxs; simp
    · have hj := ih hxs
      have hget : xs[argmaxFirst xs]? = some (xs.getD (argmaxFirst xs) 0) := by
        rw [List.getElem?_eq_getElem hj, List.getD_eq_getElem _ _ hj]
      rw [hget]
      dsimp only
      split
      · simpa using hj
      · simp

theorem argmaxFirst_is_max (l : List ℚ) (j : ℕ) (hj : j < l.length) :
    l.getD j 0 ≤ l.getD (argmaxFirst l) 0 := by
  induction l generalizing j with
  | nil => simp at hj
  | cons x xs ih =>
    rw [argmaxFirst]
    rcases eq_or_ne xs [] with hxs | hxs
    · subst hxs
      have hj0 : j = 0 := by simp at hj; omega
      subst hj0
      simp
    · have hjlt := argmaxFirst_lt_length xs hxs
      have hget : xs[argmaxFirst xs]? = some (xs.getD (argmaxFirst xs) 0) := by
        rw [List.getElem?_eq_getElem hjlt, List.getD_eq_getElem _ _ hjlt]
      rw [hget]
      dsimp only
      split
      · rename_i hlt
        cases j with
        | zero => simpa using le_of_lt hlt
        | succ i =>
          simp only [List.getD_cons_succ]
          exact ih i (by simpa using hj)
      · rename_i hge
        push_neg at hge
        cases j with
        | zero => simp
        | succ i =>
          simp only [List.getD_cons_succ, List.getD_cons_zero]
          exact le_trans (ih i (by simpa using hj)) hge

theorem argmaxFirst_lowest (l : List ℚ) (j : ℕ) (hj : j < argmaxFirst l) :
    l.getD j 0 < l.getD (argmaxFirst l) 0 := by
  induction l generalizing j with
  | nil => simp [argmaxFirst] at hj
  | cons x xs ih =>
    rw [argmaxFirst] at hj ⊢
    rcases eq_or_ne xs [] with hxs | hxs
    · subst hxs; simp at hj
    · have hjlt := argmaxFirst_lt_length xs hxs
      have hget : xs[argmaxFirst xs]? = some (xs.getD (argmaxFirst xs) 0) := by
        rw [List.getElem?_eq_getElem hjlt, List.getD_eq_getElem _ _ hjlt]
      rw [hget] at hj ⊢
      dsimp only at hj ⊢
      split
      · rename_i hlt
        rw [if_pos hlt] at hj
        cases j with
        | zero => simpa using hlt
        | succ i =>
          simp only [List.getD_cons_succ]
          exact ih i (by omega)
      · rename_i hge
        rw [if_neg hge] at hj
        omega

/-- C1: the SOLA offset reduction of the non-darwin branch (torch.argmax)
is a deterministic argmax over the normalized cross-correlation values:
it returns a valid offset, no offset has a strictly larger value, and
every offset below the chosen one has a strictly smaller value — exact
ties are broken by the lowest offset.  (The darwin branch instead calls
torch.max on a single tensor, which is the platform divergence recorded
as a code bug.) -/
theorem sola_offset_lowest_argmax (ratios : List ℚ) (h : ratios ≠ []) :
    argmaxFirst ratios < ratios.length ∧
    (∀ j, j < ratios.length →
      ratios.getD j 0 ≤ ratios.getD (argmaxFirst ratios) 0) ∧
    (∀ j, j < argmaxFirst ratios →
      ratios.getD j 0 < ratios.getD (argmaxFirst ratios) 0) :=
  ⟨argmaxFirst_lt_length ratios h,
   fun j hj => argmaxFirst_is_max ratios j hj,
   fun j hj => argmaxFirst_lowest ratios j hj⟩

/-- C1 witness: the reduction applied to the concrete correlation values
[1, 3, 3, 2]; the first of the two tied maxima (offset 1) is selected. -/
theorem sola_offset_lowest_argmax_witness :
    ([(1 : ℚ), 3, 3, 2] ≠ []) ∧
    (argmaxFirst [(1 : ℚ), 3, 3, 2] < 4 ∧
     (∀ j, j < 4 →
       [(1 : ℚ), 3, 3, 2].getD j 0 ≤
         [(1 : ℚ), 3, 3, 2].getD (argmaxFirst [(1 : ℚ), 3, 3, 2]) 0) ∧
     (∀ j, j < argmaxFirst [(1 : ℚ), 3, 3, 2] →
       [(1 : ℚ), 3, 3, 2].getD j 0 <
         [(1 : ℚ), 3, 3, 2].getD (argmaxFirst [(1 : ℚ), 3, 3, 2]) 0)) :=
  ⟨by decide, sola_offset_lowest_argmax [(1 : ℚ), 3, 3, 2] (by decide)⟩

/-! ## Event handler and session parameters (gui.py, event_handler lines 524-644)

The relevant structure of the loop body, for the parameter events:

  if event == "threhold":            gui_config.threhold = v
  elif event == "pitch":             gui_config.pitch = v        (+ rvc.change_key)
  elif event == "formant":           gui_config.formant = v      (+ rvc.change_formant)
  elif event == "index_rate":        gui_config.index_rate = v   (+ rvc.change_index_rate)
  elif event == "rms_mix_rate":      gui_config.rms_mix_rate = v
  elif event in [pm,harvest,crepe,rmvpe,fcpe]: gui_config.f0method = event
  elif event == "I_noise_reduce":    gui_config.I_noise_reduce = v
  elif event == "O_noise_reduce":    gui_config.O_noise_reduce = v
  elif event == "use_pv":            gui_config.use_pv = v
  elif event in ["vc", "im"]:        function = event
  elif event == "stop_vc" or event != "start_vc":  stop_stream()

so a block_time / crossfade_length / extra_time / n_cpu slider event falls
through to the final clause and stops the stream; a separate earlier
  if event == "start_vc" and not flag_vc: set_values(values); start_vc()
starts a session only when no stream is running, copying every slider
value into gui_config at once.
-/

/-- Pitch-extraction method selector. -/
inductive F0Method where
  | pm
  | harvest
  | crepe
  | rmvpe
  | fcpe
deriving DecidableEq

/-- The session-relevant fields of GUIConfig (gui.py lines 110-132). -/
structure GUIConfigM where
  threhold : ℚ
  pitch : ℚ
  formant : ℚ
  index_rate : ℚ
  rms_mix_rate : ℚ
  f0method : F0Method
  i_noise_reduce : Bool
  o_noise_reduce : Bool
  use_pv : Bool
  block_time : ℚ
  crossfade_time : ℚ
  extra_time : ℚ
  n_cpu : ℕ
deriving DecidableEq

/-- GUI state observed by the audio callback: the config record, the
global streaming flag `flag_vc`, and the function mode. -/
structure GUIState where
  cfg : GUIConfigM
  streaming : Bool
  func : FuncMode
deriving DecidableEq

/-- The slider values captured when `start_vc` fires; `valid` records the
outcome of the path checks of `set_values`. -/
structure StartValues where
  valid : Bool
  cfg : GUIConfigM
deriving DecidableEq

/-- The GUI events relevant to session parameters. -/
inductive GUIEvent where
  | threhold (v : ℚ)
  | pitch (v : ℚ)
  | formant (v : ℚ)
  | index_rate (v : ℚ)
  | rms_mix_rate (v : ℚ)
  | f0method (m : F0Method)
  | i_noise_reduce (b : Bool)
  | o_noise_reduce (b : Bool)
  | use_pv (b : Bool)
  | funcSelect (f : FuncMode)
  | block_time (v : ℚ)
  | crossfade_length (v : ℚ)
  | extra_time (v : ℚ)
  | n_cpu (v : ℕ)
  | stop_vc
  | start_vc (vals : StartValues)

/-- One iteration of the event_handler loop for a parameter event. -/
def handleEvent (st : GUIState) : GUIEvent → GUIState
  | .threhold v => { st with cfg := { st.cfg with threhold := v } }
  | .pitch v => { st with cfg := { st.cfg with pitch := v } }
  | .formant v => { st with cfg := { st.cfg with formant := v } }
  | .index_rate v => { st with cfg := { st.cfg with index_rate := v } }
  | .rms_mix_rate v => { st with cfg := { st.cfg with rms_mix_rate := v } }
  | .f0method m => { st with cfg := { st.cfg with f0method := m } }
  | .i_noise_reduce b => { st with cfg := { st.cfg with i_noise_reduce := b } }
  | .o_noise_reduce b => { st with cfg := { st.cfg with o_noise_reduce := b } }
  | .use_pv b => { st with cfg := { st.cfg with use_pv := b } }
  | .funcSelect f => { st with func := f }
  | .block_time _ => { st with streaming := false }
  | .crossfade_length _ => { st with streaming := false }
  | .extra_time _ => { st with streaming := false }
  | .n_cpu _ => { st with streaming := false }
  | .stop_vc => { st with streaming := false }
  | .start_vc vals =>
    if st.streaming then st
    else if vals.valid then { cfg := vals.cfg, streaming := true, func := st.func }
    else st

/-- A concrete running session used for the C6 counterexample. -/
def runningState : GUIState :=
  { cfg :=
      { threhold := -60, pitch := 0, formant := 0, index_rate := 0,
        rms_mix_rate := 0, f0method := F0Method.fcpe,
        i_noise_reduce := false, o_noise_reduce := false, use_pv := false,
        block_time := 1/4, crossfade_time := 1/20, extra_time := 5/2,
        n_cpu := 4 },
    streaming := true,
    func := FuncMode.vc }

/-- C6 counterexample: moving the response-threshold slider while the
stream is running mutates the noise-gate threshold in place and the
stream keeps running, so the threshold (and likewise rms_mix_rate,
pitch method, noise-reduction flags and phase-vocoder flag) is not
immutable for the duration of a session. -/
theorem session_params_hot_update_counterexample :
    (handleEvent runningState (GUIEvent.threhold (-30))).streaming = true ∧
    (handleEvent runningState (GUIEvent.threhold (-30))).cfg.threhold = -30 ∧
    runningState.cfg.threhold = -60 := by
  decide

/-- C6 (amended): while the stream keeps running across an event, the
structural session parameters block_time, crossfade_time, extra_time and
the worker count n_cpu are never mutated — every event that could change
them instead stops the stream, so they only change between session
starts; the hot-updatable set is threshold, pitch, formant, index rate,
rms_mix_rate, pitch method, the noise-reduction flags, the phase-vocoder
flag and the function mode. -/
theorem session_structural_params_immutable (st : GUIState) (e : GUIEvent)
    (h1 : st.streaming = true) (h2 : (handleEvent st e).streaming = true) :
    (handleEvent st e).cfg.block_time = st.cfg.block_time ∧
    (handleEvent st e).cfg.crossfade_time = st.cfg.crossfade_time ∧
    (handleEvent st e).cfg.extra_time = st.cfg.extra_time ∧
    (handleEvent st e).cfg.n_cpu = st.cfg.n_cpu := by
  cases e <;> simp_all [handleEvent]

/-- C6 witness: a pitch hot-update on the concrete running session leaves
the stream running and the structural parameters untouched. -/
theorem session_structural_params_immutable_witness :
    runningState.streaming = true ∧
    (handleEvent runningState (GUIEvent.pitch 2)).streaming = true ∧
    ((handleEvent runningState (GUIEvent.pitch 2)).cfg.block_time =
        runningState.cfg.block_time ∧
     (handleEvent runningState (GUIEvent.pitch 2)).cfg.crossfade_time =
        runningState.cfg.crossfade_time ∧
     (handleEvent runningState (GUIEvent.pitch 2)).cfg.extra_time =
        runningState.cfg.extra_time ∧
     (handleEvent runningState (GUIEvent.pitch 2)).cfg.n_cpu =
        runningState.cfg.n_cpu) :=
  ⟨rfl, rfl,
   session_structural_params_immutable runningState (GUIEvent.pitch 2) rfl rfl⟩

/-! ## Harvest pitch worker (gui.py, Harvest.run lines 68-83)

  while True:
      idx, x, res_f0, n_cpu, ts = self.inp_q.get()
      f0, t = pyworld.harvest(x.astype(np.double), fs=16000, ...)
      res_f0[idx] = f0
      if len(res_f0.keys()) >= n_cpu:
          self.opt_q.put(ts)

The shared dict res_f0 is modelled as an association list with
Python-dict insert semantics (overwrite an existing key, append a fresh
one); since all maps here arise from the empty dict, keys stay distinct
and the list length equals len(res_f0.keys()).  pyworld.harvest is an
external C routine; it is modelled as an abstract function from the
signal segment to the f0 contour, which is sound because none of the
properties below depend on the contour's values.  The multiprocessing
queues sequentialize the jobs of a batch; runBatch is that
sequentialization starting from a fresh result map.
-/

/-- One unit of work drawn from the input queue:
(idx, x, res_f0, n_cpu, ts) minus the shared map itself. -/
structure PitchJob where
  idx : ℕ
  x : List ℚ
  n_cpu : ℕ
  ts : ℕ

/-- Python dict assignment res_f0[idx] = f0 on an association list. -/
def dictInsert (m : List (ℕ × List ℚ)) (k : ℕ) (v : List ℚ) :
    List (ℕ × List ℚ) :=
  if m.any (fun p => p.1 == k) then
    m.map (fun p => if p.1 = k then (k, v) else p)
  else m ++ [(k, v)]

/-- One iteration of Harvest.run on state (result map, output queue). -/
def workerStep (harvestF0 : List ℚ → List ℚ)
    (st : List (ℕ × List ℚ) × List ℕ) (job : PitchJob) :
    List (ℕ × List ℚ) × List ℕ :=
  let m := dictInsert st.1 job.idx (harvestF0 job.x)
  (m, if job.n_cpu ≤ m.length then st.2 ++ [job.ts] else st.2)

/-- A batch of jobs processed against a fresh result map and an empty
output queue. -/
def runBatch (harvestF0 : List ℚ → List ℚ) (jobs : List PitchJob) :
    List (ℕ × List ℚ) × List ℕ :=
  jobs.foldl (workerStep harvestF0) ([], [])

theorem dictInsert_fresh (m : List (ℕ × List ℚ)) (k : ℕ) (v : List ℚ)
    (h : ∀ p ∈ m, p.1 ≠ k) : dictInsert m k v = m ++ [(k, v)] := by
  have hany : m.any (fun p => p.1 == k) = false := by
    rw [List.any_eq_false]
    intro p hp
    simpa using h p hp
  simp [dictInsert, hany]

/-- Inserting never breaks distinctness of the dict keys, so the length
of the association list is the number of keys. -/
theorem dictInsert_keys_nodup (m : List (ℕ × List ℚ)) (k : ℕ) (v : List ℚ)
    (h : (m.map Prod.fst).Nodup) :
    ((dictInsert m k v).map Prod.fst).Nodup := by
  by_cases hmem : ∀ p ∈ m, p.1 ≠ k
  · rw [dictInsert_fresh m k v hmem]
    rw [List.map_append, List.nodup_append]
    refine ⟨h, by simp, ?_⟩
    intro a ha hb
    simp only [List.map_cons, List.map_nil, List.mem_singleton] at hb
    simp only [List.mem_map] at ha
    obtain ⟨p, hp, hpa⟩ := ha
    exact hmem p hp (by rw [hpa, hb])
  · have hany : m.any (fun p => p.1 == k) = true := by
      push_neg at hmem
      obtain ⟨p, hp, hpk⟩ := hmem
      rw [List.any_eq_true]
      exact ⟨p, hp, by simpa using hpk⟩
    have hkeys : (m.map (fun p => if p.1 = k then (k, v) else p)).map Prod.fst
        = m.map Prod.fst := by
      rw [List.map_map]
      apply List.map_congr_left
      intro p _
      by_cases hpk : p.1 = k
      · simp [hpk]
      · simp [hpk]
    simp only [dictInsert, hany, if_true]
    rw [hkeys]
    exact h

/-- Processing jobs whose indices are fresh and mutually distinct grows
the result map by one entry per job and, while the total stays strictly
below the expected count, emits no completion token. -/
theorem workerFold_below (f : List ℚ → List ℚ) (n : ℕ) :
    ∀ (jobs : List PitchJob) (m : List (ℕ × List ℚ)) (q : List ℕ),
    (∀ j ∈ jobs, ∀ p ∈ m, p.1 ≠ j.idx) →
    (jobs.map PitchJob.idx).Nodup →
    (∀ j ∈ jobs, j.n_cpu = n) →
    m.length + jobs.length < n →
    (jobs.foldl (workerStep f) (m, q)).1.length = m.length + jobs.length ∧
    (jobs.foldl (workerStep f) (m, q)).2 = q := by
  intro jobs
  induction jobs with
  | nil => intro m q _ _ _ _; simp
  | cons j rest ih =>
    intro m q hdisj hnodup hcpu hlen
    have hfresh : ∀ p ∈ m, p.1 ≠ j.idx := hdisj j (by simp)
    have hins : dictInsert m j.idx (f j.x) = m ++ [(j.idx, f j.x)] :=
      dictInsert_fresh m j.idx (f j.x) hfresh
    have hmlen : (dictInsert m j.idx (f j.x)).length = m.length + 1 := by
      rw [hins]; simp
    have hnotok : ¬ j.n_cpu ≤ (dictInsert m j.idx (f j.x)).length := by
      rw [hmlen, hcpu j (by simp)]
      simp only [List.length_cons] at hlen
      omega
    have hstep : workerStep f (m, q) j = (dictInsert m j.idx (f j.x), q) := by
      simp only [workerStep, if_neg hnotok]
    rw [List.foldl_cons, hstep]
    have hdisj' : ∀ j' ∈ rest, ∀ p ∈ dictInsert m j.idx (f j.x), p.1 ≠ j'.idx := by
      intro j' hj' p hp
      rw [hins, List.mem_append] at hp
      rcases hp with hp | hp
      · exact hdisj j' (by simp [hj']) p hp
      · simp only [List.mem_singleton] at hp
        subst hp
        simp only [List.map_cons, List.nodup_cons, List.mem_map] at hnodup
        intro hcontra
        exact hnodup.1 ⟨j', hj', hcontra.symm⟩
    have hrec := ih (dictInsert m j.idx (f j.x)) q hdisj'
      (by simpa using hnodup.of_cons)
      (fun j' hj' => hcpu j' (by simp [hj']))
      (by simp only [List.length_cons] at hlen; omega)
    refine ⟨?_, hrec.2⟩
    rw [hrec.1, hmlen]
    simp only [List.length_cons]
    omega

/-- Processing a batch that exactly fills the expected count emits the
completion token of the final job, and only that token. -/
theorem workerFold_exact (f : List ℚ → List ℚ) (n : ℕ) :
    ∀ (jobs : List PitchJob) (m : List (ℕ × List ℚ)) (q : List ℕ)
      (hne : jobs ≠ []),
    (∀ j ∈ jobs, ∀ p ∈ m, p.1 ≠ j.idx) →
    (jobs.map PitchJob.idx).Nodup →
    (∀ j ∈ jobs, j.n_cpu = n) →
    m.length + jobs.length = n →
    (jobs.foldl (workerStep f) (m, q)).2 = q ++ [(jobs.getLast hne).ts] := by
  intro jobs
  induction jobs with
  | nil => intro m q hne; exact absurd rfl hne
  | cons j rest ih =>
    intro m q hne hdisj hnodup hcpu hlen
    have hfresh : ∀ p ∈ m, p.1 ≠ j.idx := hdisj j (by simp)
    have hins : dictInsert m j.idx (f j.x) = m ++ [(j.idx, f j.x)] :=
      dictInsert_fresh m j.idx (f j.x) hfresh
    have hmlen : (dictInsert m j.idx (f j.x)).length = m.length + 1 := by
      rw [hins]; simp
    rcases eq_or_ne rest [] with hrest | hrest
    · subst hrest
      have htok : j.n_cpu ≤ (dictInsert m j.idx (f j.x)).length := by
        rw [hmlen, hcpu j (by simp)]
        simp only [List.length_cons, List.length_nil] at hlen
        omega
      simp only [List.foldl_cons, List.foldl_nil, workerStep, if_pos htok]
      simp
    · have hnotok : ¬ j.n_cpu ≤ (dictInsert m j.idx (f j.x)).length := by
        rw [hmlen, hcpu j (by simp)]
        simp only [List.length_cons] at hlen
        have : 1 ≤ rest.length := List.length_pos.mpr hrest
        omega
      have hstep : workerStep f (m, q) j = (dictInsert m j.idx (f j.x), q) := by
        simp only [workerStep, if_neg hnotok]
      rw [List.foldl_cons, hstep]
      have hdisj' : ∀ j' ∈ rest, ∀ p ∈ dictInsert m j.idx (f j.x), p.1 ≠ j'.idx := by
        intro j' hj' p hp
        rw [hins, List.mem_append] at hp
        rcases hp with hp | hp
        · exact hdisj j' (by simp [hj']) p hp
        · simp only [List.mem_singleton] at hp
          subst hp
          simp only [List.map_cons, List.nodup_cons, List.mem_map] at hnodup
          intro hcontra
          exact hnodup.1 ⟨j', hj', hcontra.symm⟩
      have hrec := ih (dictInsert m j.idx (f j.x)) q hrest hdisj'
        (by simpa using hnodup.of_cons)
        (fun j' hj' => hcpu j' (by simp [hj']))
        (by rw [hmlen]; simp only [List.length_cons] at hlen; omega)
      rw [hrec, List.getLast_cons hrest]

/-- C7: a worker step writes the computed f0 contour under key idx and
puts the completion token on the output queue exactly when the updated
result map has reached the job's expected count; consequently, for a
fresh result map and a batch of n jobs with distinct indices each
expecting n results, no token is emitted while any partial result is
missing, and exactly one token — the final job's — is emitted once all n
results are present. -/
theorem harvest_run_completion (f : List ℚ → List ℚ) (jobs : List PitchJob)
    (n : ℕ)
    (h1 : (jobs.map PitchJob.idx).Nodup)
    (h2 : ∀ j ∈ jobs, j.n_cpu = n)
    (h3 : jobs.length = n)
    (h4 : jobs ≠ []) :
    (∀ st job, (workerStep f st job).1 = dictInsert st.1 job.idx (f job.x) ∧
      ((workerStep f st job).2 = st.2 ++ [job.ts] ∨
        (workerStep f st job).2 = st.2) ∧
      ((workerStep f st job).2 = st.2 ++ [job.ts] ↔
        job.n_cpu ≤ (dictInsert st.1 job.idx (f job.x)).length)) ∧
    (∀ k, k < n → (runBatch f (jobs.take k)).2 = []) ∧
    (runBatch f jobs).2 = [(jobs.getLast h4).ts] := by
  refine ⟨?_, ?_, ?_⟩
  · intro st job
    by_cases hc : job.n_cpu ≤ (dictInsert st.1 job.idx (f job.x)).length
    · refine ⟨by simp only [workerStep], Or.inl ?_, ?_⟩
      · simp only [workerStep, if_pos hc]
      · simp only [workerStep, if_pos hc]
        simpa using hc
    · refine ⟨by simp only [workerStep], Or.inr ?_, ?_⟩
      · simp only [workerStep, if_neg hc]
      · simp only [workerStep, if_neg hc]
        refine iff_of_false ?_ hc
        intro hcontra
        have := congrArg List.length hcontra
        simp at this
  · intro k hk
    have hsub : ∀ j ∈ jobs.take k, j ∈ jobs := fun j hj => List.take_subset k jobs hj
    exact ((workerFold_below f n (jobs.take k) [] []
      (fun j _ p hp => absurd hp (List.not_mem_nil p))
      (by
        have : (jobs.take k).map PitchJob.idx = (jobs.map PitchJob.idx).take k := by
          rw [List.map_take]
        rw [this]
        exact h1.sublist (List.take_sublist k _))
      (fun j hj => h2 j (hsub j hj))
      (by
        simp only [List.length_nil, List.length_take, Nat.zero_add]
        omega))).2
  · exact workerFold_exact f n jobs [] [] h4
      (fun j _ p hp => absurd hp (List.not_mem_nil p))
      h1 h2 (by simpa using h3)

/-- C7 witness: a two-job batch with distinct indices 0 and 1 and
expected count 2: no token after the first job, exactly the token 7
after both. -/
theorem harvest_run_completion_witness :
    (([⟨0, [], 2, 7⟩, ⟨1, [], 2, 7⟩] : List PitchJob).map PitchJob.idx).Nodup ∧
    (∀ j ∈ ([⟨0, [], 2, 7⟩, ⟨1, [], 2, 7⟩] : List PitchJob), j.n_cpu = 2) ∧
    ([⟨0, [], 2, 7⟩, ⟨1, [], 2, 7⟩] : List PitchJob).length = 2 ∧
    ((∀ k, k < 2 →
        (runBatch (fun _ => []) (([⟨0, [], 2, 7⟩, ⟨1, [], 2, 7⟩] :
          List PitchJob).take k)).2 = []) ∧
      (runBatch (fun _ => [])
          ([⟨0, [], 2, 7⟩, ⟨1, [], 2, 7⟩] : List PitchJob)).2 =
        [(([⟨0, [], 2, 7⟩, ⟨1, [], 2, 7⟩] : List PitchJob).getLast
            (by simp)).ts]) :=
  ⟨by simp, by simp, by simp,
   (harvest_run_completion (fun _ => []) [⟨0, [], 2, 7⟩, ⟨1, [], 2, 7⟩] 2
      (by simp) (by simp) (by simp) (by simp)).2⟩

/-! ## Phase-vocoder phase wrapping (gui.py, phase_vocoder lines 46-49)

  deltaphase = phib - phia
  deltaphase = deltaphase - 2*np.pi*torch.floor(deltaphase/2/np.pi + 0.5)
-/

/-- The per-bin phase-difference wrap of phase_vocoder. -/
noncomputable def wrapPhase (d : ℝ) : ℝ :=
  d - 2 * Real.pi * (⌊d / 2 / Real.pi + 1 / 2⌋ : ℤ)

theorem wrapPhase_eq_fract (d : ℝ) :
    wrapPhase d =
      2 * Real.pi * Int.fract (d / 2 / Real.pi + 1 / 2) - Real.pi := by
  have hpi : Real.pi ≠ 0 := Real.pi_ne_zero
  unfold wrapPhase
  rw [← Int.self_sub_floor]
  field_simp
  ring

/-- C8 counterexample: at the boundary phase difference pi the computed
wrap is -pi, which lies outside the claimed half-open interval
(-pi, pi]. -/
theorem wrap_phase_pi_counterexample :
    wrapPhase Real.pi = -Real.pi ∧
    wrapPhase Real.pi ∉ Set.Ioc (-Real.pi) Real.pi := by
  have hpi : Real.pi ≠ 0 := Real.pi_ne_zero
  have harg : Real.pi / 2 / Real.pi + 1 / 2 = 1 := by
    field_simp
    ring
  have hval : wrapPhase Real.pi = -Real.pi := by
    unfold wrapPhase
    rw [harg, Int.floor_one]
    push_cast
    ring
  refine ⟨hval, ?_⟩
  rw [hval, Set.mem_Ioc]
  exact fun h => lt_irrefl _ h.1

/-- C8 (amended): for every phase difference the computed wrap lies in
the half-open interval [-pi, pi) — closed on the left, open on the
right, rather than the claimed (-pi, pi]. -/
theorem wrap_phase_into_Ico (d : ℝ) :
    wrapPhase d ∈ Set.Ico (-Real.pi) Real.pi := by
  have hpi := Real.pi_pos
  rw [wrapPhase_eq_fract, Set.mem_Ico]
  have h0 := Int.fract_nonneg (d / 2 / Real.pi + 1 / 2)
  have h1 := Int.fract_lt_one (d / 2 / Real.pi + 1 / 2)
  constructor
  · nlinarith
  · nlinarith

/-! ## Session frame sizing (gui.py, start_vc lines 718-777)

  self.zc = samplerate // 100
  self.block_frame     = int(np.round(block_time * samplerate / zc)) * zc
  self.crossfade_frame = int(np.round(crossfade_time * samplerate / zc)) * zc
  self.sola_buffer_frame = min(self.crossfade_frame, 4 * self.zc)
  self.sola_search_frame = self.zc
  self.extra_frame     = int(np.round(extra_time * samplerate / zc)) * zc
  self.input_wav = torch.zeros(extra_frame + crossfade_frame
                               + sola_search_frame + block_frame, ...)
np.round rounds half to even.
-/

/-- The zero-crossing alignment unit zc = samplerate // 100. -/
def zcOf (samplerate : ℕ) : ℕ := samplerate / 100

/-- np.round on a rational: round half to even. -/
def npRound (q : ℚ) : ℤ :=
  let f := Int.fdiv q.num (q.den : ℤ)
  let r := q - (f : ℚ)
  if r < 1 / 2 then f
  else if 1 / 2 < r then f + 1
  else if f % 2 = 0 then f else f + 1

/-- int(np.round(t * samplerate / zc)) * zc. -/
def frameCount (t : ℚ) (samplerate : ℕ) : ℕ :=
  (npRound (t * samplerate / (zcOf samplerate : ℚ))).toNat * zcOf samplerate

/-- block_frame from block_time. -/
def block_frame (bt : ℚ) (sr : ℕ) : ℕ := frameCount bt sr

/-- crossfade_frame from crossfade_time. -/
def crossfade_frame (ct : ℚ) (sr : ℕ) : ℕ := frameCount ct sr

/-- extra_frame from extra_time. -/
def extra_frame (et : ℚ) (sr : ℕ) : ℕ := frameCount et sr

/-- sola_buffer_frame = min(crossfade_frame, 4 * zc). -/
def sola_buffer_frame (ct : ℚ) (sr : ℕ) : ℕ :=
  min (crossfade_frame ct sr) (4 * zcOf sr)

/-- sola_search_frame = zc. -/
def sola_search_frame (sr : ℕ) : ℕ := zcOf sr

/-- Allocated length of the input_wav ring buffer. -/
def input_wav_length (bt ct et : ℚ) (sr : ℕ) : ℕ :=
  extra_frame et sr + crossfade_frame ct sr + sola_search_frame sr +
    block_frame bt sr

/-- C10: at session start the SOLA overlap length is the minimum of the
requested crossfade frame count and 4·zc, hence capped at 4·zc samples —
which is 40 ms of audio whenever 100 divides the sample rate — for every
requested crossfade_time, while the input ring buffer is still sized by
the full crossfade_frame. -/
theorem sola_buffer_frame_capped (bt ct et : ℚ) (sr : ℕ)
    (h100 : 100 ∣ sr) (h0 : 0 < sr) :
    sola_buffer_frame ct sr = min (crossfade_frame ct sr) (4 * zcOf sr) ∧
    sola_buffer_frame ct sr ≤ 4 * zcOf sr ∧
    ((4 * zcOf sr : ℕ) : ℚ) / (sr : ℚ) = 1 / 25 ∧
    input_wav_length bt ct et sr =
      extra_frame et sr + crossfade_frame ct sr + sola_search_frame sr +
        block_frame bt sr := by
  refine ⟨rfl, min_le_right _ _, ?_, rfl⟩
  obtain ⟨k, hk⟩ := h100
  subst hk
  have hzc : zcOf (100 * k) = k := by
    unfold zcOf
    omega
  rw [hzc]
  have hq : (0 : ℚ) < ((100 * k : ℕ) : ℚ) := by
    exact_mod_cast (by omega : 0 < 100 * k)
  rw [div_eq_div_iff hq.ne' (by norm_num : (25 : ℚ) ≠ 0)]
  push_cast
  ring

/-- C10 witness: at 48 kHz (zc = 480) with crossfade_time = 0.1 s the
requested crossfade_frame is 4800 but the SOLA overlap is capped at
1920 = 4·zc. -/
theorem sola_buffer_frame_capped_witness :
    (100 ∣ 48000) ∧ (0 < 48000) ∧
    (sola_buffer_frame (1/10) 48000 =
        min (crossfade_frame (1/10) 48000) (4 * zcOf 48000) ∧
     sola_buffer_frame (1/10) 48000 ≤ 4 * zcOf 48000 ∧
     ((4 * zcOf 48000 : ℕ) : ℚ) / (48000 : ℚ) = 1 / 25 ∧
     input_wav_length (1/4) (1/10) (5/2) 48000 =
       extra_frame (5/2) 48000 + crossfade_frame (1/10) 48000 +
         sola_search_frame 48000 + block_frame (1/4) 48000) :=
  ⟨by decide, by decide,
   sola_buffer_frame_capped (1/4) (1/10) (5/2) 48000 (by decide) (by decide)⟩

end VoiceConversion
